import Mathlib

/-!
Shallow embedding of `reap` (src/main.rs), a Ruby heap-dump analyzer, together
with proofs about its record parser, graph builder, dominator-based
retained-size aggregator, relevance pruner and top-N reporter.

Modelling conventions:
* `usize` is modelled as `Nat` (the claims under study never exercise overflow);
  `f64` threshold fractions are modelled as exact rationals `ℚ` (`as f64`
  multiplication followed by `.floor() as usize` becomes `Int.toNat ∘ Int.floor`
  on `ℚ`; the two agree on all values representable without rounding).
* `HashMap`/`HashSet` become association lists updated in place, and
  `petgraph`'s `Graph<Object, _, Directed, usize>` becomes an index-keyed node
  list plus an edge list of index pairs.  The `HashMap<&Object, Stats>` of
  `dominator_subtree_sizes` is keyed by `Object`, whose equality and hash are
  address-only; since the builder creates one node per address the map is
  equivalently keyed by node index, which is how it is modelled here
  (`Nat → Stats`, total, with `{count := 0, bytes := 0}` standing for
  "no entry", which the aggregator never produces for a real node index).
* `petgraph::algo::dominators::simple_fast` is external library code; its
  result is modelled as a function `idom : Nat → Option Nat` about which the
  theorems assume exactly the library's documented contract
  (`immediate_dominator` is `none` precisely on the root and on nodes
  unreachable from the root, dominators are reachable nodes, and iterating
  `idom` from any reachable node reaches the root without truncation).
* Abrupt termination (`expect` on `Result`/`Option`) is modelled by
  `Except.error` carrying the message — which in the source is the offending
  input line itself.
-/

/-- `struct Stats { count: usize, bytes: usize }`. -/
structure Stats where
  count : Nat
  bytes : Nat
deriving DecidableEq

/-- `Stats::add`: pointwise addition (the Rust method takes `&mut self` but
only reads it and returns the fresh sum). -/
def Stats.add (a b : Stats) : Stats :=
  { count := a.count + b.count, bytes := a.bytes + b.bytes }

/-- `struct Object { address, bytes, kind, label }`. -/
structure Object where
  address : Nat
  bytes : Nat
  kind : String
  label : Option String
deriving DecidableEq

/-- `Object::stats`: one object, its own byte size. -/
def Object.stats (o : Object) : Stats := { count := 1, bytes := o.bytes }

/-- `Object::root()`: the synthetic process root, address 0. -/
def Object.root : Object :=
  { address := 0, bytes := 0, kind := "ROOT", label := some "root" }

/-- `Object::is_root`: identified purely by address 0. -/
def Object.is_root (o : Object) : Bool := o.address == 0

/-- `impl Display for Object`: the precomputed label if any, else
`"<kind>[<address>]"`. -/
def Object.display (o : Object) : String :=
  match o.label with
  | some l => l
  | none => o.kind ++ "[" ++ toString o.address ++ "]"

/-- `struct Line`: one decoded dump record (serde field `class` is called
`classAddr` here because `class` is a Lean keyword; `type` is `object_type`
exactly as in the Rust struct's rename). -/
structure Line where
  address : Option String
  memsize : Option Nat
  references : List String
  object_type : String
  classAddr : Option String
  root : Option String
  name : Option String
  length : Option Nat
  size : Option Nat
  value : Option String
deriving DecidableEq

/-- `struct ParsedLine`. -/
structure ParsedLine where
  object : Object
  references : List Nat
  module : Option Nat
  name : Option String
deriving DecidableEq

/-- Value of one hex digit, 0 for anything else.  `usize::from_str_radix`
would return `Err` (and the caller's `unwrap` would abort) on a non-digit;
the claims never evaluate that path, so it is modelled as digit value 0. -/
def hexDigitVal (c : Char) : Nat :=
  if '0' ≤ c ∧ c ≤ '9' then c.toNat - 48
  else if 'a' ≤ c ∧ c ≤ 'f' then c.toNat - 87
  else if 'A' ≤ c ∧ c ≤ 'F' then c.toNat - 55
  else 0

/-- `Line::parse_address`: strip the two-character `"0x"` prefix and read the
rest as hexadecimal. -/
def Line.parse_address (s : String) : Nat :=
  (s.data.drop 2).foldl (fun acc c => acc * 16 + hexDigitVal c) 0

/-- Rust `char::is_control`: the Unicode `Cc` category,
`U+0000..U+001F` and `U+007F..U+009F`. -/
def isControlChar (c : Char) : Bool :=
  decide (c.toNat < 32 ∨ (127 ≤ c.toNat ∧ c.toNat ≤ 159))

/-- The per-character step of the `STRING` label: control characters are
dropped and a backslash becomes the placeholder glyph `U+FE68`, exactly the
`flat_map` closure in `Line::parse`. -/
def escapeChar (c : Char) : Option Char :=
  if isControlChar c then none
  else if c = '\\' then some '﹨'
  else some c

/-- Label of a `STRING` record: the first 40 characters of the value, each
mapped through `escapeChar` (`value.chars().take(40).flat_map(..)`). -/
def stringLabel (v : String) : String :=
  String.mk ((v.data.take 40).filterMap escapeChar)

/-- Definition following the spec's words for comparison with `stringLabel`:
"the first 40 non-control characters of the value", with backslash replaced
by the placeholder glyph.  (The code instead truncates to 40 characters
before dropping control characters.) -/
def specStringLabel (v : String) : String :=
  String.mk (((v.data.filter (fun c => !isControlChar c)).take 40).map
    (fun c => if c = '\\' then '﹨' else c))

/-- The kind-specific label derivation of `Line::parse`.  A `none` result
models the `?` operator aborting the whole `parse` call (array without
`length`, hash without `size`); `some lab` is a successfully derived
(possibly absent) label. -/
def Line.labelFor (l : Line) (kind : String) : Option (Option String) :=
  if kind = "CLASS" ∨ kind = "MODULE" ∨ kind = "ICLASS" then
    some (l.name.map (fun n => n ++ "[" ++ kind ++ "]"))
  else if kind = "ARRAY" then
    match l.length with
    | none => none
    | some len => some (some ("Array[len=" ++ toString len ++ "]"))
  else if kind = "HASH" then
    match l.size with
    | none => none
    | some sz => some (some ("Hash[size=" ++ toString sz ++ "]"))
  else if kind = "STRING" then
    some (l.value.map stringLabel)
  else
    some none

/-- `Line::parse`: `none` models the Rust `None` ("no object").  Records with
address 0 (in particular records with no address at all) that are not of kind
`ROOT` are rejected, then the kind-specific label is derived (whose own
failure also rejects the record). -/
def Line.parse (l : Line) : Option ParsedLine :=
  if (l.address.map Line.parse_address).getD 0 = 0 ∧ l.object_type ≠ "ROOT" then
    none
  else
    match Line.labelFor l l.object_type with
    | none => none
    | some lab =>
      some { object := { address := (l.address.map Line.parse_address).getD 0,
                         bytes := l.memsize.getD 0,
                         kind := l.object_type,
                         label := lab },
             references := l.references.map Line.parse_address,
             module := l.classAddr.map Line.parse_address,
             name := l.name }

/-- The reference graph: node weights indexed by position (the root is the
first node added, index 0) and directed edges as index pairs.  Edge weights
(always the empty string in the source) are omitted. -/
structure RefGraph where
  nodes : List Object
  edges : List (Nat × Nat)
deriving DecidableEq

/-- Stats of the node at index `n` (its own count-1/self-bytes record);
`{count := 0, bytes := 0}` for an index with no node. -/
def statAt (g : RefGraph) (n : Nat) : Stats :=
  ((g.nodes[n]?).map Object.stats).getD { count := 0, bytes := 0 }

/-! ### Graph builder (`fn parse`)

The three `HashMap`s (`indices`, `instances`, `names`) and the
`HashMap<usize, Vec<usize>>` of reference lists become association lists with
in-place replacement (`alInsert`), preserving `HashMap::insert` semantics;
iteration order over an association list stands for the map's arbitrary
iteration order. -/

/-- `HashMap::insert`: replace the binding of `k` in place, or append it. -/
def alInsert {α : Type} (k : Nat) (v : α) : List (Nat × α) → List (Nat × α)
  | [] => [(k, v)]
  | (k2, v2) :: t => if k2 = k then (k, v) :: t else (k2, v2) :: alInsert k v t

/-- The builder's accumulated state: node list (root first), address→index
map, per-address reference lists, instance→module addresses, and declared
names. -/
structure BuildState where
  nodes : List Object
  indices : List (Nat × Nat)
  refs : List (Nat × List Nat)
  instances : List (Nat × Nat)
  names : List (Nat × String)

/-- State after the root node is created and registered (start of `parse`). -/
def startState : BuildState :=
  { nodes := [Object.root], indices := [(0, 0)], refs := [(0, [])],
    instances := [], names := [] }

/-- Pass 1, one record: root-kind records extend the root's reference list;
any other record becomes a fresh node and registers its reference list
(when non-empty), its module address and its declared name. -/
def applyRecord (st : BuildState) (p : ParsedLine) : BuildState :=
  if p.object.is_root then
    { st with refs := alInsert 0 (((st.refs.lookup 0).getD []) ++ p.references) st.refs }
  else
    let a := p.object.address
    { nodes := st.nodes ++ [p.object],
      indices := alInsert a st.nodes.length st.indices,
      refs := if p.references.isEmpty then st.refs else alInsert a p.references st.refs,
      instances := match p.module with
        | some m => alInsert a m st.instances
        | none => st.instances,
      names := match p.name with
        | some nm => alInsert a nm st.names
        | none => st.names }

/-- Pass 2: resolve each recorded reference list into edges, silently
dropping references whose target address was never seen as a node.  (The
source indexes `indices[&node]` unconditionally for the edge source; for
states produced by pass 1 every `refs` key is also an `indices` key, so the
`none` fallback here is dead code standing in for that lookup.) -/
def addEdges (indices : List (Nat × Nat)) (refs : List (Nat × List Nat)) :
    List (Nat × Nat) :=
  (refs.map (fun ar =>
    match indices.lookup ar.1 with
    | none => []
    | some i => ar.2.filterMap (fun s => (indices.lookup s).map (fun j => (i, j))))).flatten

/-- Pass 3: objects that declared a module whose address has a declared name
get their `kind` overwritten by that name. -/
def resolveKinds (instances : List (Nat × Nat)) (names : List (Nat × String))
    (nodes : List Object) : List Object :=
  nodes.map (fun o =>
    match instances.lookup o.address with
    | some m =>
      match names.lookup m with
      | some nm => { o with kind := nm }
      | none => o
    | none => o)

/-- Assemble the finished graph from the builder state. -/
def finishGraph (st : BuildState) : RefGraph :=
  { nodes := resolveKinds st.instances st.names st.nodes,
    edges := addEdges st.indices st.refs }

/-- One line of the driver loop: schema decoding (`serde_json::from_str`,
abstracted as `dec`) chained with `Line::parse`.  A `none` at either stage is
what the source's two `expect(&line)` calls abort on. -/
def processLine (dec : String → Option Line) (l : String) : Option ParsedLine :=
  (dec l).bind Line.parse

/-- The driver loop over input lines: the first line that fails decoding or
record parsing aborts the run, carrying that line's content (the `expect`
message); otherwise the record is folded into the builder state. -/
def buildLoop (dec : String → Option Line) : BuildState → List String →
    Except String BuildState
  | st, [] => Except.ok st
  | st, l :: ls =>
    match processLine dec l with
    | none => Except.error l
    | some p => buildLoop dec (applyRecord st p) ls

/-- `fn parse`, minus file I/O: decode every line, build the graph, return
the root index (0) and the graph — or abort on the first bad line, emitting
nothing else. -/
def parseDump (dec : String → Option Line) (lines : List String) :
    Except String (Nat × RefGraph) :=
  match buildLoop dec startState lines with
  | Except.error l => Except.error l
  | Except.ok st => Except.ok (0, finishGraph st)

/-! ### Reachability

"Reachable from the root" for the reference graph: bounded breadth-first
closure.  Any node reachable by some path is reachable by a path of distinct
nodes, all of which (bar the start) are edge targets, so
`nodes.length + edges.length` expansion rounds saturate the closure. -/

/-- Successors of node `n` in `g`. -/
def succList (g : RefGraph) (n : Nat) : List Nat :=
  (g.edges.filter (fun e => e.1 == n)).map Prod.snd

/-- Add every successor of the current set, deduplicated. -/
def reachStep (g : RefGraph) (s : List Nat) : List Nat :=
  (s ++ (s.map (succList g)).flatten).dedup

/-- Iterate `reachStep` a fixed number of rounds. -/
def reachAux (g : RefGraph) : Nat → List Nat → List Nat
  | 0, s => s
  | f + 1, s => reachAux g f (reachStep g s)

/-- All nodes reachable from `r` in `g`. -/
def reachList (g : RefGraph) (r : Nat) : List Nat :=
  reachAux g (g.nodes.length + g.edges.length) [r]

/-! ### Dominator / retained-size aggregator (`dominator_subtree_sizes`) -/

/-- The chain of strict dominators of `i`: iterate `idom` until it yields
`none`, exactly the `while let Some(dom) = tree.immediate_dominator(i)` loop.
The loop in the source terminates because the immediate-dominator relation is
a tree rooted at the root node; the fuel argument (instantiated with the node
count, an upper bound on the depth of that tree) makes the same iteration
structurally recursive. -/
def chainFrom (idom : Nat → Option Nat) : Nat → Nat → List Nat
  | 0, _ => []
  | f + 1, i =>
    match idom i with
    | none => []
    | some d => d :: chainFrom idom f d

/-- Add `s` to the table entry of `d` (`subtree_sizes.entry(..).and_modify`). -/
def bumpTable (t : Nat → Stats) (s : Stats) (d : Nat) : Nat → Stats :=
  fun a => if a = d then (t a).add s else t a

/-- `dominator_subtree_sizes`: every node's entry starts as its own stats,
then each node's stats are added to the entry of every strict dominator on
its chain. -/
def dominator_subtree_sizes (g : RefGraph) (idom : Nat → Option Nat) :
    Nat → Stats :=
  (List.range g.nodes.length).foldl
    (fun t n =>
      (chainFrom idom g.nodes.length n).foldl
        (fun t2 d => bumpTable t2 (statAt g n) d) t)
    (statAt g)

/-! ### Relevance pruner (`relevant_subgraph`) -/

/-- `threshold_bytes = (root_retained_bytes as f64 * t).floor() as usize`,
with the `f64` arithmetic modelled exactly on `ℚ` (`as usize` of a negative
float saturates to 0, as does `Int.toNat`). -/
def threshold_bytes (r : Nat) (table : Nat → Stats) (t : ℚ) : Nat :=
  (Int.floor (((table r).bytes : ℚ) * t)).toNat

/-- The `retain_edges` closure with its `seen` set: drop self-loops, keep the
first occurrence of each ordered `(source, target)` pair.  (`seen.insert` is
only reached when `v != w`, and re-inserting a present element leaves a
`HashSet` unchanged.) -/
def retainEdges : List (Nat × Nat) → List (Nat × Nat) → List (Nat × Nat)
  | _, [] => []
  | seen, e :: es =>
    if e.1 = e.2 then retainEdges seen es
    else if e ∈ seen then retainEdges seen es
    else e :: retainEdges (e :: seen) es

/-- The relabelling applied to each surviving node:
`"<display>: <self>b self, <retained − self>b refs, <retained count> objects"`. -/
def retainedLabel (o : Object) (s : Stats) : String :=
  o.display ++ ": " ++ toString o.bytes ++ "b self, " ++
    toString (s.bytes - o.bytes) ++ "b refs, " ++ toString s.count ++ " objects"

/-- The pruned subgraph.  `petgraph`'s `retain_nodes` compacts indices; the
surviving nodes are recorded here under their original indices instead
(`keptNodes`), which is the same graph up to index renaming, so node
membership and edge-pair properties read off directly. -/
structure PrunedGraph where
  keptNodes : List Nat
  nodes : List Object
  edges : List (Nat × Nat)
deriving DecidableEq

/-- `relevant_subgraph`: keep the nodes whose retained bytes meet the
threshold, drop every edge touching a removed node, then drop self-loops and
duplicate ordered pairs, and finally relabel the survivors. -/
def relevant_subgraph (r : Nat) (g : RefGraph) (table : Nat → Stats) (t : ℚ) :
    PrunedGraph :=
  let tb := threshold_bytes r table t
  let kept := (List.range g.nodes.length).filter
    (fun n => decide (tb ≤ (table n).bytes))
  let edges0 := g.edges.filter (fun e => decide (e.1 ∈ kept ∧ e.2 ∈ kept))
  { keptNodes := kept,
    nodes := kept.filterMap (fun n => (g.nodes[n]?).map
      (fun o => { o with label := some (retainedLabel o (table n)) })),
    edges := retainEdges [] edges0 }

/-! ### Top-N reporter (`print_largest`) -/

/-- The remainder fold of `print_largest`:
`fold(Stats::default(), |acc, c| acc.add(*c))`. -/
def sumStats (l : List (String × Stats)) : Stats :=
  l.foldl (fun acc c => acc.add c.2) { count := 0, bytes := 0 }

/-- One output row: `"<key>: <bytes> bytes (<count> objects)"`. -/
def formatRow (k : String) (s : Stats) : String :=
  k ++ ": " ++ toString s.bytes ++ " bytes (" ++ toString s.count ++ " objects)"

/-- `sort_unstable_by_key(|(_, c)| c.bytes)`: the comparison key. -/
def byBytes (a b : String × Stats) : Prop := a.2.bytes ≤ b.2.bytes

instance : DecidableRel byBytes := fun a b => Nat.decLe a.2.bytes b.2.bytes

instance : IsTotal (String × Stats) byBytes :=
  ⟨fun a b => Nat.le_total a.2.bytes b.2.bytes⟩

instance : IsTrans (String × Stats) byBytes :=
  ⟨fun _ _ _ hab hbc => Nat.le_trans hab hbc⟩

/-- `print_largest`: sort ascending by bytes (modelled by a sorting function;
the source's unstable sort produces some bytes-sorted permutation and tie
order is not semantically significant), traverse in reverse (descending),
print the top `count` rows, then one `"..."` row aggregating the rest. -/
def print_largest (entries : List (String × Stats)) (count : Nat) : List String :=
  let desc := (List.insertionSort byBytes entries).reverse
  (desc.take count).map (fun e => formatRow e.1 e.2) ++
    [formatRow "..." (sumStats (desc.drop count))]

/-! ### Fixtures used by the witness and counterexample theorems -/

/-- A reachable 5-byte object. -/
def oA : Object := { address := 100, bytes := 5, kind := "OBJECT", label := none }

/-- An unreachable (orphaned) 7-byte object. -/
def oB : Object := { address := 200, bytes := 7, kind := "OBJECT", label := none }

/-- Witness graph: root → oA, with oB orphaned. -/
def gW : RefGraph := { nodes := [Object.root, oA, oB], edges := [(0, 1)] }

/-- The immediate-dominator function of `gW` rooted at index 0 (node 1 is
dominated by the root; the root and the unreachable node 2 have none). -/
def idomW : Nat → Option Nat := fun n => if n = 1 then some 0 else none

/-- A record with no address and a non-root kind. -/
def lineNoAddr : Line :=
  { address := none, memsize := none, references := [], object_type := "OBJECT",
    classAddr := none, root := none, name := none, length := none, size := none,
    value := none }

/-- A decoder that decodes every line to `lineNoAddr`. -/
def decW : String → Option Line := fun _ => some lineNoAddr

/-- A well-formed root record. -/
def lineRoot : Line :=
  { address := none, memsize := none, references := ["0x64"], object_type := "ROOT",
    classAddr := none, root := some "vm", name := none, length := none, size := none,
    value := none }

/-- A decoder that fails (schema decoding error) exactly on the line
`"bad"` and decodes every other line as a root record. -/
def dec6 : String → Option Line := fun s => if s = "bad" then none else some lineRoot

/-- A `STRING` record whose value starts with a control character followed by
40 `a`s. -/
def ctrlString : String := String.mk (Char.ofNat 1 :: List.replicate 40 'a')

/-- A `STRING` record carrying `ctrlString`. -/
def strLineW : Line :=
  { address := some "0x10", memsize := some 1, references := [],
    object_type := "STRING", classAddr := none, root := none, name := none,
    length := none, size := none, value := some ctrlString }

/-- A small well-formed `STRING` record. -/
def strLineOk : Line :=
  { address := some "0x10", memsize := some 3, references := [],
    object_type := "STRING", classAddr := none, root := none, name := none,
    length := none, size := none, value := some "hi" }

/-- What `strLineOk` parses to. -/
def strLineOkParsed : ParsedLine :=
  { object := { address := 16, bytes := 3, kind := "STRING", label := some "hi" },
    references := [], module := none, name := none }

/-! ### Algebraic structure on `Stats` -/

instance : Zero Stats := ⟨{ count := 0, bytes := 0 }⟩

instance : Add Stats := ⟨Stats.add⟩

instance : AddCommMonoid Stats where
  add_assoc a b c := by
    show (a.add b).add c = a.add (b.add c)
    simp [Stats.add, Nat.add_assoc]
  zero_add a := by
    show Stats.add { count := 0, bytes := 0 } a = a
    simp [Stats.add]
  add_zero a := by
    show Stats.add a { count := 0, bytes := 0 } = a
    simp [Stats.add]
  add_comm a b := by
    show a.add b = b.add a
    simp [Stats.add, Nat.add_comm]
  nsmul := nsmulRec

/-- `Stats.bytes` as an additive monoid homomorphism. -/
def bytesHom : Stats →+ Nat :=
  { toFun := Stats.bytes, map_zero' := rfl, map_add' := fun _ _ => rfl }

/-! ## Helper lemmas -/

theorem Stats.add_comm' (a b : Stats) : a.add b = b.add a := by
  simp [Stats.add, Nat.add_comm]

theorem Stats.add_assoc' (a b c : Stats) : (a.add b).add c = a.add (b.add c) := by
  simp [Stats.add, Nat.add_assoc]

theorem Stats.zero_add' (a : Stats) : (Stats.mk 0 0).add a = a := by
  simp [Stats.add]

theorem Stats.add_zero' (a : Stats) : a.add (Stats.mk 0 0) = a := by
  simp [Stats.add]

/-- Every edge surviving `retainEdges` is not a self-loop. -/
theorem retainEdges_ne :
    ∀ (es seen : List (Nat × Nat)), ∀ e ∈ retainEdges seen es, e.1 ≠ e.2 := by
  intro es
  induction es with
  | nil => intro seen e he; simp [retainEdges] at he
  | cons x xs ih =>
    intro seen e he
    by_cases h1 : x.1 = x.2
    · rw [show retainEdges seen (x :: xs) = retainEdges seen xs by
        simp [retainEdges, h1]] at he
      exact ih seen e he
    · by_cases h2 : x ∈ seen
      · rw [show retainEdges seen (x :: xs) = retainEdges seen xs by
          simp [retainEdges, h1, h2]] at he
        exact ih seen e he
      · rw [show retainEdges seen (x :: xs) = x :: retainEdges (x :: seen) xs by
          simp [retainEdges, h1, h2]] at he
        rcases List.mem_cons.mp he with rfl | hmem
        · exact h1
        · exact ih (x :: seen) e hmem

/-- `retainEdges` produces a duplicate-free list disjoint from `seen`. -/
theorem retainEdges_nodup_disj :
    ∀ (es seen : List (Nat × Nat)),
      (retainEdges seen es).Nodup ∧ ∀ e ∈ retainEdges seen es, e ∉ seen := by
  intro es
  induction es with
  | nil => intro seen; simp [retainEdges]
  | cons x xs ih =>
    intro seen
    by_cases h1 : x.1 = x.2
    · rw [show retainEdges seen (x :: xs) = retainEdges seen xs by
        simp [retainEdges, h1]]
      exact ih seen
    · by_cases h2 : x ∈ seen
      · rw [show retainEdges seen (x :: xs) = retainEdges seen xs by
          simp [retainEdges, h1, h2]]
        exact ih seen
      · rw [show retainEdges seen (x :: xs) = x :: retainEdges (x :: seen) xs by
          simp [retainEdges, h1, h2]]
        obtain ⟨hnd, hdisj⟩ := ih (x :: seen)
        refine ⟨List.nodup_cons.mpr ⟨fun hx => ?_, hnd⟩, ?_⟩
        · exact hdisj x hx (List.mem_cons_self x seen)
        · intro e he
          rcases List.mem_cons.mp he with rfl | hmem
          · exact h2
          · intro hseen
            exact hdisj e hmem (List.mem_cons_of_mem x hseen)

/-- The pruned graph's edge list is `retainEdges` of the node-filtered edges. -/
theorem relevant_subgraph_edges (r : Nat) (g : RefGraph) (table : Nat → Stats)
    (t : ℚ) :
    (relevant_subgraph r g table t).edges =
      retainEdges [] (g.edges.filter (fun e =>
        decide (e.1 ∈ (relevant_subgraph r g table t).keptNodes ∧
                e.2 ∈ (relevant_subgraph r g table t).keptNodes))) := rfl

/-- Aborting run: if any line of the input fails to process, `buildLoop`
returns an error carrying some failing line of the input. -/
theorem buildLoop_abort (dec : String → Option Line) :
    ∀ (lines : List String) (st : BuildState) (l : String),
      l ∈ lines → processLine dec l = none →
      ∃ l2 ∈ lines, processLine dec l2 = none ∧
        buildLoop dec st lines = Except.error l2 := by
  intro lines
  induction lines with
  | nil => intro st l hl; simp at hl
  | cons x xs ih =>
    intro st l hl hnone
    cases hx : processLine dec x with
    | none =>
      exact ⟨x, List.mem_cons_self x xs, hx, by simp [buildLoop, hx]⟩
    | some p =>
      rcases List.mem_cons.mp hl with rfl | hmem
      · rw [hx] at hnone; cases hnone
      · obtain ⟨l2, h2mem, h2none, h2eq⟩ := ih (applyRecord st p) l hmem hnone
        refine ⟨l2, List.mem_cons_of_mem x h2mem, h2none, ?_⟩
        rw [show buildLoop dec st (x :: xs) = buildLoop dec (applyRecord st p) xs by
          simp [buildLoop, hx]]
        exact h2eq

/-- A prefix of cleanly-processing lines followed by a failing line makes
`buildLoop` abort with exactly that failing line. -/
theorem buildLoop_error_at (dec : String → Option Line) :
    ∀ (pre : List String) (st : BuildState) (bad : String) (rest : List String),
      (∀ p ∈ pre, processLine dec p ≠ none) → processLine dec bad = none →
      buildLoop dec st (pre ++ bad :: rest) = Except.error bad := by
  intro pre
  induction pre with
  | nil =>
    intro st bad rest _ hbad
    simp [buildLoop, hbad]
  | cons p ps ih =>
    intro st bad rest hpre hbad
    cases hp : processLine dec p with
    | none => exact absurd hp (hpre p (List.mem_cons_self p ps))
    | some q =>
      rw [List.cons_append,
        show buildLoop dec st (p :: (ps ++ bad :: rest)) =
          buildLoop dec (applyRecord st q) (ps ++ bad :: rest) by
            simp [buildLoop, hp]]
      exact ih _ bad rest (fun x hx => hpre x (List.mem_cons_of_mem p hx)) hbad

/-- `reachStep` keeps the current set. -/
theorem mem_reachStep_of_mem {g : RefGraph} {s : List Nat} {a : Nat}
    (h : a ∈ s) : a ∈ reachStep g s := by
  unfold reachStep
  exact List.mem_dedup.mpr (List.mem_append.mpr (Or.inl h))

/-- `reachAux` keeps the current set. -/
theorem mem_reachAux_of_mem {g : RefGraph} :
    ∀ (f : Nat) (s : List Nat) (a : Nat), a ∈ s → a ∈ reachAux g f s := by
  intro f
  induction f with
  | zero => intro s a h; exact h
  | succ f ih => intro s a h; exact ih (reachStep g s) a (mem_reachStep_of_mem h)

/-- The start node is reachable from itself. -/
theorem self_mem_reachList (g : RefGraph) (r : Nat) : r ∈ reachList g r :=
  mem_reachAux_of_mem _ _ r (List.mem_singleton.mpr rfl)

/-- A node whose `idom` is `none` has an empty dominator chain. -/
theorem chainFrom_none {idom : Nat → Option Nat} {r : Nat}
    (h : idom r = none) : ∀ f, chainFrom idom f r = [] := by
  intro f
  cases f with
  | zero => rfl
  | succ f => simp [chainFrom, h]

/-- Unfolding of the dominator chain at positive fuel. -/
theorem chainFrom_succ (idom : Nat → Option Nat) (f i : Nat) :
    chainFrom idom (f + 1) i =
      match idom i with
      | none => []
      | some d => d :: chainFrom idom f d := rfl

/-- If the root's `idom` is `none`, it occurs at most once on any chain
(once reached, the chain stops). -/
theorem count_chainFrom_le_one {idom : Nat → Option Nat} {r : Nat}
    (h : idom r = none) : ∀ (f m : Nat), (chainFrom idom f m).count r ≤ 1 := by
  intro f
  induction f with
  | zero => intro m; simp [chainFrom]
  | succ f ih =>
    intro m
    cases hm : idom m with
    | none => simp [chainFrom, hm]
    | some d =>
      simp only [chainFrom, hm]
      by_cases hd : d = r
      · subst hd
        rw [chainFrom_none h f]
        simp [List.count_cons]
      · rw [List.count_cons]
        have : (d == r) = false := beq_false_of_ne hd
        simp [this]
        exact ih d

theorem Stats.add_eq (a b : Stats) : a.add b = a + b := rfl

/-- Effect of propagating one node's stats along a chain, at any table key:
the key gains one copy of `s` per occurrence on the chain. -/
theorem foldl_bump_apply (s : Stats) :
    ∀ (chain : List Nat) (t : Nat → Stats) (a : Nat),
      (chain.foldl (fun t2 d => bumpTable t2 s d) t) a = t a + chain.count a • s := by
  intro chain
  induction chain with
  | nil => intro t a; simp
  | cons d ds ih =>
    intro t a
    rw [List.foldl_cons, ih, List.count_cons]
    by_cases h : a = d
    · subst h
      simp only [bumpTable, if_pos rfl, beq_self_eq_true, if_pos, Stats.add_eq]
      rw [add_nsmul, one_nsmul]
      abel
    · have hne : (d == a) = false := beq_false_of_ne (Ne.symm h)
      simp [bumpTable, if_neg h, hne]

/-- Effect of the whole aggregation fold at any table key. -/
theorem foldl_table_apply (g : RefGraph) (idom : Nat → Option Nat) :
    ∀ (L : List Nat) (t : Nat → Stats) (a : Nat),
      (L.foldl (fun t2 n => (chainFrom idom g.nodes.length n).foldl
        (fun t3 d => bumpTable t3 (statAt g n) d) t2) t) a
      = t a + (L.map (fun n =>
          (chainFrom idom g.nodes.length n).count a • statAt g n)).sum := by
  intro L
  induction L with
  | nil => intro t a; simp
  | cons x xs ih =>
    intro t a
    rw [List.foldl_cons, ih, foldl_bump_apply, List.map_cons, List.sum_cons,
      add_assoc]

/-- Sum over `List.range` as a `Finset.range` sum. -/
theorem sum_map_range (f : Nat → Stats) :
    ∀ n : Nat, ((List.range n).map f).sum = ∑ i in Finset.range n, f i := by
  intro n
  induction n with
  | zero => simp
  | succ n ih =>
    rw [List.range_succ, List.map_append, List.sum_append, Finset.sum_range_succ,
      ih]
    simp

/-- Closed form of the aggregated table: each entry is the node's own stats
plus one copy of every node's stats per occurrence of the entry's index on
that node's strict-dominator chain. -/
theorem dss_apply (g : RefGraph) (idom : Nat → Option Nat) (a : Nat) :
    dominator_subtree_sizes g idom a =
      statAt g a + ∑ n in Finset.range g.nodes.length,
        (chainFrom idom g.nodes.length n).count a • statAt g n := by
  unfold dominator_subtree_sizes
  rw [foldl_table_apply, sum_map_range]

/-- Byte projection of `dss_apply`. -/
theorem dss_bytes (g : RefGraph) (idom : Nat → Option Nat) (a : Nat) :
    (dominator_subtree_sizes g idom a).bytes =
      (statAt g a).bytes + ∑ n in Finset.range g.nodes.length,
        (chainFrom idom g.nodes.length n).count a * (statAt g n).bytes := by
  have h := congrArg (fun x => bytesHom x) (dss_apply g idom a)
  simp only [map_add, map_sum, map_nsmul, smul_eq_mul] at h
  exact h

/-- Under the no-truncation contract, any chain element heads a suffix of the
chain: the dominator chain of `d` is the tail of the chain beyond `d`. -/
theorem chain_suffix {idom : Nat → Option Nat} {L : Nat}
    (hrange : ∀ i, i < L → ∀ d, idom i = some d → d < L)
    (hsuf : ∀ i, i < L → ∀ d, idom i = some d →
      chainFrom idom L i = d :: chainFrom idom L d) :
    ∀ (k m : Nat), (chainFrom idom L m).length ≤ k → m < L →
      ∀ d ∈ chainFrom idom L m,
        (d :: chainFrom idom L d) <:+ chainFrom idom L m := by
  intro k
  induction k with
  | zero =>
    intro m hlen hm d hd
    rw [List.length_eq_zero.mp (Nat.le_zero.mp hlen)] at hd
    simp at hd
  | succ k ih =>
    intro m hlen hm d hd
    cases he : idom m with
    | none =>
      rw [chainFrom_none he] at hd
      simp at hd
    | some e =>
      have hchain := hsuf m hm e he
      rw [hchain] at hd
      rcases List.mem_cons.mp hd with rfl | h
      · rw [hchain]
      · have he' := hrange m hm e he
        have hlen' : (chainFrom idom L e).length ≤ k := by
          rw [hchain, List.length_cons] at hlen
          omega
        have h2 : chainFrom idom L e <:+ chainFrom idom L m := by
          rw [hchain]
          exact List.suffix_cons e _
        exact (ih e hlen' he' d h).trans h2

/-- No node sits on its own strict-dominator chain. -/
theorem chain_not_mem_self {idom : Nat → Option Nat} {L : Nat}
    (hrange : ∀ i, i < L → ∀ d, idom i = some d → d < L)
    (hsuf : ∀ i, i < L → ∀ d, idom i = some d →
      chainFrom idom L i = d :: chainFrom idom L d)
    {m : Nat} (hm : m < L) : m ∉ chainFrom idom L m := by
  intro hmem
  have hle :=
    (chain_suffix hrange hsuf (chainFrom idom L m).length m le_rfl hm m hmem).length_le
  rw [List.length_cons] at hle
  omega

/-- Dominator chains are duplicate-free. -/
theorem chain_nodup {idom : Nat → Option Nat} {L : Nat}
    (hrange : ∀ i, i < L → ∀ d, idom i = some d → d < L)
    (hsuf : ∀ i, i < L → ∀ d, idom i = some d →
      chainFrom idom L i = d :: chainFrom idom L d) :
    ∀ (k m : Nat), (chainFrom idom L m).length ≤ k → m < L →
      (chainFrom idom L m).Nodup := by
  intro k
  induction k with
  | zero =>
    intro m hlen hm
    rw [List.length_eq_zero.mp (Nat.le_zero.mp hlen)]
    exact List.nodup_nil
  | succ k ih =>
    intro m hlen hm
    cases he : idom m with
    | none =>
      rw [chainFrom_none he]
      exact List.nodup_nil
    | some e =>
      have hchain := hsuf m hm e he
      have he' := hrange m hm e he
      have hlen' : (chainFrom idom L e).length ≤ k := by
        rw [hchain, List.length_cons] at hlen
        omega
      rw [hchain]
      exact List.nodup_cons.mpr
        ⟨chain_not_mem_self hrange hsuf he', ih e hlen' he'⟩

/-- Chain membership is transitive along chains. -/
theorem chain_mem_trans {idom : Nat → Option Nat} {L : Nat}
    (hrange : ∀ i, i < L → ∀ d, idom i = some d → d < L)
    (hsuf : ∀ i, i < L → ∀ d, idom i = some d →
      chainFrom idom L i = d :: chainFrom idom L d)
    {m d n : Nat} (hm : m < L) (hd : d ∈ chainFrom idom L m)
    (hn : n ∈ chainFrom idom L d) : n ∈ chainFrom idom L m :=
  (chain_suffix hrange hsuf (chainFrom idom L m).length m le_rfl hm d hd).subset
    (List.mem_cons_of_mem d hn)

/-- On a duplicate-free chain, a member's count is exactly one. -/
theorem chain_count_eq_one {idom : Nat → Option Nat} {L : Nat}
    (hrange : ∀ i, i < L → ∀ d, idom i = some d → d < L)
    (hsuf : ∀ i, i < L → ∀ d, idom i = some d →
      chainFrom idom L i = d :: chainFrom idom L d)
    {m d : Nat} (hm : m < L) (hd : d ∈ chainFrom idom L m) :
    (chainFrom idom L m).count d = 1 := by
  have hnd := chain_nodup hrange hsuf (chainFrom idom L m).length m le_rfl hm
  have hle := List.nodup_iff_count_le_one.mp hnd d
  have hpos := List.count_pos_iff.mpr hd
  omega

/-- Core monotonicity: if `n` lies on the strict-dominator chain of `d`, then
`n`'s aggregated bytes dominate `d`'s. -/
theorem dss_bytes_mono (g : RefGraph) (idom : Nat → Option Nat)
    (hrange : ∀ i, i < g.nodes.length → ∀ d, idom i = some d → d < g.nodes.length)
    (hsuf : ∀ i, i < g.nodes.length → ∀ d, idom i = some d →
      chainFrom idom g.nodes.length i = d :: chainFrom idom g.nodes.length d)
    {n d : Nat} (hd : d < g.nodes.length)
    (hmem : n ∈ chainFrom idom g.nodes.length d) :
    (dominator_subtree_sizes g idom d).bytes ≤
      (dominator_subtree_sizes g idom n).bytes := by
  rw [dss_bytes, dss_bytes]
  have hdmem : d ∈ Finset.range g.nodes.length := Finset.mem_range.mpr hd
  rw [← Finset.sum_erase_add _ _ hdmem, ← Finset.sum_erase_add _ _ hdmem]
  have hcdd : (chainFrom idom g.nodes.length d).count d = 0 :=
    List.count_eq_zero.mpr (chain_not_mem_self hrange hsuf hd)
  have hcnd : (chainFrom idom g.nodes.length d).count n = 1 :=
    chain_count_eq_one hrange hsuf hd hmem
  have hsum :
      (∑ m in (Finset.range g.nodes.length).erase d,
        (chainFrom idom g.nodes.length m).count d * (statAt g m).bytes) ≤
      ∑ m in (Finset.range g.nodes.length).erase d,
        (chainFrom idom g.nodes.length m).count n * (statAt g m).bytes := by
    apply Finset.sum_le_sum
    intro m hm
    have hmL : m < g.nodes.length :=
      Finset.mem_range.mp (Finset.mem_of_mem_erase hm)
    by_cases hdm : d ∈ chainFrom idom g.nodes.length m
    · have h1 : (chainFrom idom g.nodes.length m).count d = 1 :=
        chain_count_eq_one hrange hsuf hmL hdm
      have h2 : (chainFrom idom g.nodes.length m).count n = 1 :=
        chain_count_eq_one hrange hsuf hmL
          (chain_mem_trans hrange hsuf hmL hdm hmem)
      rw [h1, h2]
    · rw [List.count_eq_zero.mpr hdm, Nat.zero_mul]
      exact Nat.zero_le _
  rw [hcdd, hcnd]
  omega

/-- C1: for every built graph whose dominator function satisfies petgraph's
contract at the root (`idom` is `none` on the root and on unreachable nodes,
and every reachable non-root node's chain reaches the root), the aggregated
`RetainedStats` entry of the root equals the sum of the own `Stats` (count 1,
bytes = self size) of every node reachable from the root, each counted
exactly once. -/
theorem c1_root_retained_stats (g : RefGraph) (r : Nat) (idom : Nat → Option Nat)
    (hr : r < g.nodes.length)
    (h1 : idom r = none)
    (h2 : ∀ n, n < g.nodes.length → n ∉ reachList g r → idom n = none)
    (h3 : ∀ n, n < g.nodes.length → n ∈ reachList g r → n ≠ r →
      r ∈ chainFrom idom g.nodes.length n) :
    dominator_subtree_sizes g idom r =
      ∑ n in (Finset.range g.nodes.length).filter (fun n => n ∈ reachList g r),
        statAt g n := by
  rw [dss_apply]
  have key : ∀ n ∈ Finset.range g.nodes.length,
      (chainFrom idom g.nodes.length n).count r • statAt g n =
      if n ∈ reachList g r ∧ n ≠ r then statAt g n else 0 := by
    intro n hn
    have hnL := Finset.mem_range.mp hn
    by_cases hre : n ∈ reachList g r
    · by_cases hnr : n = r
      · subst hnr
        rw [chainFrom_none h1, if_neg (by simp)]
        simp
      · have hcount : (chainFrom idom g.nodes.length n).count r = 1 := by
          have hle := count_chainFrom_le_one h1 g.nodes.length n
          have hpos := List.count_pos_iff.mpr (h3 n hnL hre hnr)
          omega
        rw [hcount, one_nsmul, if_pos ⟨hre, hnr⟩]
    · rw [chainFrom_none (h2 n hnL hre), if_neg (by tauto)]
      simp
  rw [Finset.sum_congr rfl key, ← Finset.sum_filter]
  have hfe : (Finset.range g.nodes.length).filter
        (fun n => n ∈ reachList g r ∧ n ≠ r) =
      ((Finset.range g.nodes.length).filter
        (fun n => n ∈ reachList g r)).erase r := by
    ext x
    simp only [Finset.mem_filter, Finset.mem_erase]
    tauto
  rw [hfe]
  exact Finset.add_sum_erase _ _
    (Finset.mem_filter.mpr ⟨Finset.mem_range.mpr hr, self_mem_reachList g r⟩)

/-- C1 witness: on the fixture graph (root → oA, oB orphaned) with its true
dominator function, the root's aggregated entry is the reachable sum. -/
theorem c1_root_retained_stats_witness :
    dominator_subtree_sizes gW idomW 0 =
      ∑ n in (Finset.range gW.nodes.length).filter (fun n => n ∈ reachList gW 0),
        statAt gW n :=
  c1_root_retained_stats gW 0 idomW (by decide) (by decide) (by decide)
    (by decide)

/-- C3: for every reachable node `n`, its aggregated (retained) bytes are at
least its own self bytes, and at least the aggregated bytes of every node
whose strict-dominator chain contains `n` (every proper descendant of `n` in
the dominator tree), given petgraph's dominator-tree contract (dominators are
valid node indices and chains are not truncated at fuel `nodes.length`). -/
theorem c3_dominance_monotonicity (g : RefGraph) (r : Nat)
    (idom : Nat → Option Nat)
    (hrange : ∀ i, i < g.nodes.length → ∀ d, idom i = some d → d < g.nodes.length)
    (hsuf : ∀ i, i < g.nodes.length → ∀ d, idom i = some d →
      chainFrom idom g.nodes.length i = d :: chainFrom idom g.nodes.length d)
    (n : Nat) (_hn : n < g.nodes.length) (_hreach : n ∈ reachList g r) :
    (statAt g n).bytes ≤ (dominator_subtree_sizes g idom n).bytes ∧
    ∀ d, d < g.nodes.length → n ∈ chainFrom idom g.nodes.length d →
      (dominator_subtree_sizes g idom d).bytes ≤
        (dominator_subtree_sizes g idom n).bytes := by
  constructor
  · rw [dss_bytes]
    exact Nat.le_add_right _ _
  · intro d hd hmem
    exact dss_bytes_mono g idom hrange hsuf hd hmem

/-- C3 witness: on the fixture graph, node 1 (reachable, dominated by the
root) satisfies both inequalities; in particular the root is the `d` of the
second conjunct. -/
theorem c3_dominance_monotonicity_witness :
    (statAt gW 1).bytes ≤ (dominator_subtree_sizes gW idomW 1).bytes ∧
    ∀ d, d < gW.nodes.length → 1 ∈ chainFrom idomW gW.nodes.length d →
      (dominator_subtree_sizes gW idomW d).bytes ≤
        (dominator_subtree_sizes gW idomW 1).bytes :=
  c3_dominance_monotonicity gW 0 idomW
    (by
      intro i hi d hd
      by_cases h : i = 1
      · subst h
        simp [idomW] at hd
        omega
      · simp [idomW, h] at hd)
    (by
      intro i hi d hd
      by_cases h : i = 1
      · subst h
        simp [idomW] at hd
        subst hd
        decide
      · simp [idomW, h] at hd)
    1 (by decide) (by decide)

/-- Every element of a dominator chain is a valid, root-reachable node index,
given that every immediate dominator is one. -/
theorem chain_mem_reachable (g : RefGraph) (r : Nat) (idom : Nat → Option Nat)
    (h24 : ∀ m, m < g.nodes.length → ∀ d, idom m = some d →
      d < g.nodes.length ∧ d ∈ reachList g r) :
    ∀ (f m : Nat), m < g.nodes.length →
      ∀ x ∈ chainFrom idom f m, x < g.nodes.length ∧ x ∈ reachList g r := by
  intro f
  induction f with
  | zero => intro m _ x hx; simp [chainFrom] at hx
  | succ f ih =>
    intro m hm x hx
    cases he : idom m with
    | none =>
      rw [chainFrom_none he] at hx
      simp at hx
    | some e =>
      simp only [chainFrom, he, List.mem_cons] at hx
      rcases hx with rfl | hx
      · exact h24 m hm x he
      · exact ih e (h24 m hm e he).1 x hx

/-- Membership in the pruned node set, in terms of the threshold test. -/
theorem kept_mem_iff (r : Nat) (g : RefGraph) (table : Nat → Stats) (t : ℚ)
    (n : Nat) :
    n ∈ (relevant_subgraph r g table t).keptNodes ↔
      n < g.nodes.length ∧ threshold_bytes r table t ≤ (table n).bytes := by
  show n ∈ (List.range g.nodes.length).filter
    (fun n => decide (threshold_bytes r table t ≤ (table n).bytes)) ↔ _
  rw [List.mem_filter, List.mem_range, decide_eq_true_eq]

/-- C10: the aggregated table has an entry for every node of the graph
(modelled by totality over node indices); for a node unreachable from the
root the entry is exactly its own `Stats`, and the pruner subjects it to the
ordinary threshold test on those bytes. -/
theorem c10_unreachable_entries (g : RefGraph) (r : Nat)
    (idom : Nat → Option Nat) (t : ℚ)
    (h24 : ∀ m, m < g.nodes.length → ∀ d, idom m = some d →
      d < g.nodes.length ∧ d ∈ reachList g r)
    (n : Nat) (hn : n < g.nodes.length) (hun : n ∉ reachList g r) :
    dominator_subtree_sizes g idom n = statAt g n ∧
    (n ∈ (relevant_subgraph r g (dominator_subtree_sizes g idom) t).keptNodes ↔
      threshold_bytes r (dominator_subtree_sizes g idom) t ≤
        (statAt g n).bytes) := by
  have htab : dominator_subtree_sizes g idom n = statAt g n := by
    rw [dss_apply]
    have hzero : ∀ m ∈ Finset.range g.nodes.length,
        (chainFrom idom g.nodes.length m).count n • statAt g m = 0 := by
      intro m hm
      have hmL := Finset.mem_range.mp hm
      have : n ∉ chainFrom idom g.nodes.length m := fun hmem =>
        hun (chain_mem_reachable g r idom h24 g.nodes.length m hmL n hmem).2
      rw [List.count_eq_zero.mpr this, zero_nsmul]
    rw [Finset.sum_congr rfl hzero]
    simp
  refine ⟨htab, ?_⟩
  rw [kept_mem_iff, htab]
  exact ⟨fun h => h.2, fun h => ⟨hn, h⟩⟩

/-- C10 witness: node 2 of the fixture graph is unreachable; its entry is its
own stats and the pruner tests it against the threshold like any node. -/
theorem c10_unreachable_entries_witness :
    dominator_subtree_sizes gW idomW 2 = statAt gW 2 ∧
    (2 ∈ (relevant_subgraph 0 gW (dominator_subtree_sizes gW idomW)
        ((1 : ℚ) / 2)).keptNodes ↔
      threshold_bytes 0 (dominator_subtree_sizes gW idomW) ((1 : ℚ) / 2) ≤
        (statAt gW 2).bytes) :=
  c10_unreachable_entries gW 0 idomW ((1 : ℚ) / 2)
    (by
      intro m hm d hd
      by_cases h : m = 1
      · subst h
        simp [idomW] at hd
        subst hd
        exact ⟨by decide, by decide⟩
      · simp [idomW, h] at hd)
    2 (by decide) (by decide)

/-- At threshold fraction 0 the byte threshold is 0. -/
theorem threshold_at_zero (r : Nat) (table : Nat → Stats) :
    threshold_bytes r table 0 = 0 := by
  simp [threshold_bytes]

/-- At threshold fraction 1 the byte threshold is exactly the root's
retained bytes. -/
theorem threshold_at_one (r : Nat) (table : Nat → Stats) :
    threshold_bytes r table 1 = (table r).bytes := by
  simp [threshold_bytes]

/-- At threshold fractions of at least 1 the byte threshold is at least the
root's retained bytes. -/
theorem threshold_ge_root (r : Nat) (table : Nat → Stats) {t : ℚ}
    (ht : 1 ≤ t) : (table r).bytes ≤ threshold_bytes r table t := by
  unfold threshold_bytes
  have h1 : ((table r).bytes : ℚ) ≤ ((table r).bytes : ℚ) * t :=
    le_mul_of_one_le_right (by positivity) ht
  have h2 : (((table r).bytes : Nat) : ℤ) ≤
      Int.floor (((table r).bytes : ℚ) * t) := by
    rw [Int.le_floor]
    push_cast
    exact h1
  calc (table r).bytes = (((table r).bytes : Nat) : ℤ).toNat := by simp
  _ ≤ _ := Int.toNat_le_toNat h2

/-- Among root-reachable nodes the root's aggregated bytes are maximal. -/
theorem retained_le_root (g : RefGraph) (r : Nat) (idom : Nat → Option Nat)
    (hrange : ∀ i, i < g.nodes.length → ∀ d, idom i = some d → d < g.nodes.length)
    (hsuf : ∀ i, i < g.nodes.length → ∀ d, idom i = some d →
      chainFrom idom g.nodes.length i = d :: chainFrom idom g.nodes.length d)
    (h3 : ∀ n, n < g.nodes.length → n ∈ reachList g r → n ≠ r →
      r ∈ chainFrom idom g.nodes.length n)
    (n : Nat) (hn : n < g.nodes.length) (hre : n ∈ reachList g r) :
    (dominator_subtree_sizes g idom n).bytes ≤
      (dominator_subtree_sizes g idom r).bytes := by
  by_cases h : n = r
  · subst h
    exact le_refl _
  · exact dss_bytes_mono g idom hrange hsuf hn (h3 n hn hre h)

/-- C4 (amended): the pruner keeps exactly the nodes whose retained bytes
meet `threshold_bytes = floor(root_retained_bytes * t)` (non-strict), so at
`t = 0` every node is kept; under the dominator-tree contract, at fractions
`t ≥ 1` every *root-reachable* survivor has retained bytes equal to the
root's, and at `t = 1` every root-reachable node with retained bytes equal to
the root's survives.  (Unreachable nodes with retained bytes at or above the
threshold also survive — see the counterexample to the claim as stated.) -/
theorem c4_pruning_threshold_amended (g : RefGraph) (r : Nat)
    (idom : Nat → Option Nat) (t : ℚ) (n : Nat)
    (hrange : ∀ i, i < g.nodes.length → ∀ d, idom i = some d → d < g.nodes.length)
    (hsuf : ∀ i, i < g.nodes.length → ∀ d, idom i = some d →
      chainFrom idom g.nodes.length i = d :: chainFrom idom g.nodes.length d)
    (h3 : ∀ m, m < g.nodes.length → m ∈ reachList g r → m ≠ r →
      r ∈ chainFrom idom g.nodes.length m)
    (hn : n < g.nodes.length) :
    (n ∈ (relevant_subgraph r g (dominator_subtree_sizes g idom) t).keptNodes ↔
      threshold_bytes r (dominator_subtree_sizes g idom) t ≤
        (dominator_subtree_sizes g idom n).bytes) ∧
    n ∈ (relevant_subgraph r g (dominator_subtree_sizes g idom) 0).keptNodes ∧
    (1 ≤ t → n ∈ reachList g r →
      n ∈ (relevant_subgraph r g (dominator_subtree_sizes g idom) t).keptNodes →
      (dominator_subtree_sizes g idom n).bytes =
        (dominator_subtree_sizes g idom r).bytes) ∧
    (n ∈ reachList g r →
      (dominator_subtree_sizes g idom n).bytes =
        (dominator_subtree_sizes g idom r).bytes →
      n ∈ (relevant_subgraph r g (dominator_subtree_sizes g idom) 1).keptNodes) := by
  refine ⟨?_, ?_, ?_, ?_⟩
  · rw [kept_mem_iff]
    exact ⟨fun h => h.2, fun h => ⟨hn, h⟩⟩
  · rw [kept_mem_iff, threshold_at_zero]
    exact ⟨hn, Nat.zero_le _⟩
  · intro ht hre hk
    have hle1 := (kept_mem_iff _ _ _ _ _ |>.mp hk).2
    have hle2 := retained_le_root g r idom hrange hsuf h3 n hn hre
    have hle3 := threshold_ge_root r (dominator_subtree_sizes g idom) ht
    omega
  · intro _hre heq
    rw [kept_mem_iff, threshold_at_one]
    exact ⟨hn, le_of_eq heq.symm⟩

/-- C4 counterexample: on the fixture graph at `t = 1`, the unreachable node
2 survives the pruner although its retained bytes (7) differ from the root's
(5) — refuting "only the root and nodes whose retained bytes equal the
root's survive at `t = 1.0`". -/
theorem c4_pruning_threshold_cex :
    2 ∈ (relevant_subgraph 0 gW (dominator_subtree_sizes gW idomW) 1).keptNodes ∧
    (dominator_subtree_sizes gW idomW 2).bytes ≠
      (dominator_subtree_sizes gW idomW 0).bytes := by
  constructor
  · rw [kept_mem_iff, threshold_at_one]
    exact ⟨by decide, by decide⟩
  · decide

/-- C4 witness: the amended statement applied to the reachable node 1 of the
fixture graph at `t = 1`. -/
theorem c4_pruning_threshold_amended_witness :
    (1 ∈ (relevant_subgraph 0 gW (dominator_subtree_sizes gW idomW) 1).keptNodes ↔
      threshold_bytes 0 (dominator_subtree_sizes gW idomW) 1 ≤
        (dominator_subtree_sizes gW idomW 1).bytes) ∧
    1 ∈ (relevant_subgraph 0 gW (dominator_subtree_sizes gW idomW) 0).keptNodes ∧
    ((1 : ℚ) ≤ 1 → 1 ∈ reachList gW 0 →
      1 ∈ (relevant_subgraph 0 gW (dominator_subtree_sizes gW idomW) 1).keptNodes →
      (dominator_subtree_sizes gW idomW 1).bytes =
        (dominator_subtree_sizes gW idomW 0).bytes) ∧
    (1 ∈ reachList gW 0 →
      (dominator_subtree_sizes gW idomW 1).bytes =
        (dominator_subtree_sizes gW idomW 0).bytes →
      1 ∈ (relevant_subgraph 0 gW (dominator_subtree_sizes gW idomW) 1).keptNodes) :=
  c4_pruning_threshold_amended gW 0 idomW 1 1
    (by
      intro i hi d hd
      by_cases h : i = 1
      · subst h
        simp [idomW] at hd
        omega
      · simp [idomW, h] at hd)
    (by
      intro i hi d hd
      by_cases h : i = 1
      · subst h
        simp [idomW] at hd
        subst hd
        decide
      · simp [idomW, h] at hd)
    (by decide)
    (by decide)

/-- C5: for every input graph, retained-stats table and threshold, the pruned
subgraph has no self-loop edge and no two edges with the same ordered
(source, target) pair. -/
theorem c5_no_self_loops_no_dups (r : Nat) (g : RefGraph) (table : Nat → Stats)
    (t : ℚ) :
    (∀ e ∈ (relevant_subgraph r g table t).edges, e.1 ≠ e.2) ∧
    (relevant_subgraph r g table t).edges.Nodup := by
  rw [relevant_subgraph_edges]
  exact ⟨fun e he => retainEdges_ne _ _ e he, (retainEdges_nodup_disj _ _).1⟩

/-- C5 witness: the property instantiated on the fixture pipeline. -/
theorem c5_no_self_loops_no_dups_witness :
    (∀ e ∈ (relevant_subgraph 0 gW (dominator_subtree_sizes gW idomW) 1).edges,
      e.1 ≠ e.2) ∧
    (relevant_subgraph 0 gW (dominator_subtree_sizes gW idomW) 1).edges.Nodup :=
  c5_no_self_loops_no_dups 0 gW (dominator_subtree_sizes gW idomW) 1

/-- C2 counterexample: a record with no address and non-root kind parses to
"no object", but the driver's `expect` on that `None` aborts the whole run
with the offending line — the run does not continue. -/
theorem c2_silent_drop_cex :
    Line.parse lineNoAddr = none ∧ parseDump decW ["x"] = Except.error "x" :=
  ⟨rfl, rfl⟩

/-- C2 (amended): records with no address and non-root kind, array records
without a length, and hash records without a size all make `Line::parse`
return no object; however the driver treats any such record as fatal — the
run aborts with an error carrying a failing line rather than continuing. -/
theorem c2_silent_drop_amended :
    (∀ l : Line, l.address = none → l.object_type ≠ "ROOT" → l.parse = none) ∧
    (∀ l : Line, l.object_type = "ARRAY" → l.length = none → l.parse = none) ∧
    (∀ l : Line, l.object_type = "HASH" → l.size = none → l.parse = none) ∧
    (∀ (dec : String → Option Line) (lines : List String) (l : String),
      l ∈ lines → processLine dec l = none →
      ∃ l2 ∈ lines, processLine dec l2 = none ∧
        parseDump dec lines = Except.error l2) := by
  refine ⟨?_, ?_, ?_, ?_⟩
  · intro l ha hk
    unfold Line.parse
    rw [if_pos ⟨by rw [ha]; rfl, hk⟩]
  · intro l hk hlen
    have hlab : Line.labelFor l l.object_type = none := by
      rw [hk]
      unfold Line.labelFor
      rw [if_neg (by decide), if_pos rfl, hlen]
    unfold Line.parse
    split
    · rfl
    · rw [hlab]
  · intro l hk hsz
    have hlab : Line.labelFor l l.object_type = none := by
      rw [hk]
      unfold Line.labelFor
      rw [if_neg (by decide), if_neg (by decide), if_pos rfl, hsz]
    unfold Line.parse
    split
    · rfl
    · rw [hlab]
  · intro dec lines l hl hnone
    obtain ⟨l2, hmem, hnone2, heq⟩ :=
      buildLoop_abort dec lines startState l hl hnone
    refine ⟨l2, hmem, hnone2, ?_⟩
    unfold parseDump
    rw [heq]

/-- C2 amended witness: the addressless `OBJECT` record is rejected by
`Line::parse`, and a run containing it aborts. -/
theorem c2_silent_drop_amended_witness :
    Line.parse lineNoAddr = none ∧
    ∃ l2 ∈ ["x"], processLine decW l2 = none ∧
      parseDump decW ["x"] = Except.error l2 :=
  ⟨c2_silent_drop_amended.1 lineNoAddr rfl (by decide),
   c2_silent_drop_amended.2.2.2 decW ["x"] "x" (by decide) (by decide)⟩

/-- C6: if a line of the input fails schema decoding, the run aborts fatally
at the first failing line, the error carries that line's content, and no
result (graph or otherwise) is produced — `Except.error` carries nothing
else. -/
theorem c6_malformed_line_aborts (dec : String → Option Line)
    (pre : List String) (bad : String) (rest : List String)
    (hpre : ∀ p ∈ pre, processLine dec p ≠ none)
    (hbad : dec bad = none) :
    parseDump dec (pre ++ bad :: rest) = Except.error bad := by
  unfold parseDump
  rw [buildLoop_error_at dec pre startState bad rest hpre
    (by simp [processLine, hbad])]

/-- C6 witness: a concrete run whose second line fails decoding aborts with
exactly that line. -/
theorem c6_malformed_line_aborts_witness :
    parseDump dec6 ["good", "bad", "tail"] = Except.error "bad" :=
  c6_malformed_line_aborts dec6 ["good"] "bad" ["tail"] (by decide) (by decide)

/-- C7 counterexample: for a value starting with one control character
followed by forty `a`s, the code's label (39 `a`s: truncate to 40 characters,
then drop controls) differs from "the first 40 non-control characters of the
value" (40 `a`s). -/
theorem c7_string_label_cex :
    (Line.parse strLineW).map (fun p => p.object.label) =
      some (some (stringLabel ctrlString)) ∧
    stringLabel ctrlString ≠ specStringLabel ctrlString := by
  exact ⟨by decide, by decide⟩

/-- C7 (amended): the label of a parsed `STRING` record with value `v`
consists of the non-control characters among the first 40 characters of `v`,
with each backslash replaced by the placeholder glyph. -/
theorem c7_string_label_amended (l : Line) (v : String) (p : ParsedLine)
    (hk : l.object_type = "STRING") (hv : l.value = some v)
    (hp : l.parse = some p) :
    p.object.label = some (stringLabel v) := by
  have hlab : Line.labelFor l l.object_type = some (some (stringLabel v)) := by
    rw [hk]
    unfold Line.labelFor
    rw [if_neg (by decide), if_neg (by decide), if_neg (by decide),
      if_pos rfl, hv]
    rfl
  unfold Line.parse at hp
  by_cases hc : (l.address.map Line.parse_address).getD 0 = 0 ∧
      l.object_type ≠ "ROOT"
  · rw [if_pos hc] at hp
    cases hp
  · rw [if_neg hc, hlab] at hp
    simp only [Option.some.injEq] at hp
    subst hp
    rfl

/-- C7 amended witness: a concrete `STRING` record parses with the predicted
label. -/
theorem c7_string_label_amended_witness :
    strLineOkParsed.object.label = some (stringLabel "hi") :=
  c7_string_label_amended strLineOk "hi" strLineOkParsed rfl rfl (by decide)

/-- C8: `Stats.add` adds bytes and counts pointwise, is commutative and
associative, and `(0, 0)` is a two-sided identity — `Stats` is a commutative
monoid under `add`. -/
theorem c8_stats_monoid :
    (∀ a b : Stats, (a.add b).bytes = a.bytes + b.bytes ∧
      (a.add b).count = a.count + b.count) ∧
    (∀ a b : Stats, a.add b = b.add a) ∧
    (∀ a b c : Stats, (a.add b).add c = a.add (b.add c)) ∧
    (∀ a : Stats, (Stats.mk 0 0).add a = a ∧ a.add (Stats.mk 0 0) = a) :=
  ⟨fun _ _ => ⟨rfl, rfl⟩, Stats.add_comm', Stats.add_assoc',
   fun a => ⟨Stats.zero_add' a, Stats.add_zero' a⟩⟩

/-- C9: `print_largest` emits some bytes-sorted descending permutation of the
table's entries: the top `k` rows formatted as
`"<key>: <bytes> bytes (<count> objects)"`, then one `"..."` row whose stats
are the fold-sum of all remaining entries; with at most `k` entries the
trailing row reports `(0, 0)`. -/
theorem c9_print_largest (entries : List (String × Stats)) (k : Nat) :
    ((List.insertionSort byBytes entries).reverse).Perm entries ∧
    ((List.insertionSort byBytes entries).reverse).Pairwise
      (fun a b => b.2.bytes ≤ a.2.bytes) ∧
    print_largest entries k =
      (((List.insertionSort byBytes entries).reverse).take k).map
        (fun e => formatRow e.1 e.2) ++
      [formatRow "..."
        (sumStats (((List.insertionSort byBytes entries).reverse).drop k))] ∧
    (entries.length ≤ k →
      sumStats (((List.insertionSort byBytes entries).reverse).drop k) =
        { count := 0, bytes := 0 }) := by
  refine ⟨?_, ?_, rfl, ?_⟩
  · exact (List.reverse_perm _).trans (List.perm_insertionSort byBytes entries)
  · exact List.pairwise_reverse.mpr (List.sorted_insertionSort byBytes entries)
  · intro hk
    have hlen : ((List.insertionSort byBytes entries).reverse).length ≤ k := by
      rw [List.length_reverse, List.length_insertionSort]
      exact hk
    rw [List.drop_eq_nil_of_le hlen]
    rfl

/-- C9 witness: a one-entry table printed with `k = 3`. -/
theorem c9_print_largest_witness :
    print_largest [("a", Stats.mk 1 2)] 3 =
      ["a: 2 bytes (1 objects)", "...: 0 bytes (0 objects)"] :=
  (c9_print_largest [("a", Stats.mk 1 2)] 3).2.2.1.trans (by decide)
